import Mathlib

/-!
Verification of the `lex-sequence` library (`src/index.ts`).

The library enumerates a sequence of nonnegative integers whose base-`b`
representations are lexicographically increasing. All functions live in
a closure `lexSequence(base)` over a fixed even base `>= 4`.

We embed the TypeScript functions shallowly: JavaScript numbers holding
exact integers become `ℕ` (or `ℤ` where the source can see negative or
sentinel values), `Math.pow` becomes `^`, and the floating-point
`Math.floor(Math.log(seq) / Math.log(base))` digit count is embedded as
its intended exact value `Nat.log`. Functions that `throw` are embedded
returning `Option`.
-/

namespace LexSequence

/-- The base-validity contract shared by all operations: `base` is an even
integer `>= 4`. -/
def ValidBase (b : ℕ) : Prop := b % 2 = 0 ∧ 4 ≤ b

/-- The guard at the top of `lexSequence(base)`:
`!Number.isSafeInteger(base) || base % 2 !== 0 || base < 4` causes a throw.
Over exact integers `Number.isSafeInteger` is true, and `base % 2 !== 0`
holds exactly for odd `base` (JS `%` returns `-1` or `1` on odd negatives,
both nonzero, matching `Int.emod` which returns `1`). -/
def baseCheckFails (base : ℤ) : Bool := (base % 2 != 0) || (base < 4)

/-- Embedding of `len(seq)`: the length of `seq` in base-`b` digits,
`seq === 0 ? 1 : Math.floor(Math.log(seq) / logBase) + 1`.
The floating-point logarithm quotient is embedded as its exact value
`Nat.log b seq`. -/
def len (b seq : ℕ) : ℕ := if seq = 0 then 1 else Nat.log b seq + 1

/-- Embedding of `first(d)`: the first number in the sequence with `d` digits,
`Math.pow(base, d) - base * Math.pow(base / 2, d - 1)`.
(Only ever called with `d >= 1`, where the subtraction does not underflow.) -/
def first (b d : ℕ) : ℕ := b ^ d - b * (b / 2) ^ (d - 1)

/-- Embedding of `last(d)`: the last number in the sequence with `d` digits,
`Math.pow(base, d) - Math.pow(base / 2, d) - 1`.
(Only ever called with `d >= 1`, where the subtractions do not underflow.) -/
def last (b d : ℕ) : ℕ := b ^ d - (b / 2) ^ d - 1

/-- Embedding of `successor(seq)`: the next number in the sequence after
`seq`. -/
def successor (b seq : ℕ) : ℕ :=
  if seq = last b (len b seq) then (seq + 1) * b else seq + 1

/-- The loop inside `sequence(index)`: starting from `remaining = index` and
`d = 1`, subtract the tier size `(base/2)^d` while it still fits, incrementing
`d`. Returns the final `(d, remaining)`. The source loop terminates because
`base/2 >= 2` for every valid base; the `h = 0` guard (unreachable for valid
bases) only makes the recursion well-founded for all parameters. -/
def seqLoop (h remaining d : ℕ) : ℕ × ℕ :=
  if h = 0 then (d, remaining)
  else if remaining < h ^ d then (d, remaining)
  else seqLoop h (remaining - h ^ d) (d + 1)
termination_by remaining
decreasing_by
  have hp : 0 < h ^ d := Nat.pos_pow_of_pos d (Nat.pos_of_ne_zero (by assumption))
  have hle : h ^ d ≤ remaining := Nat.le_of_not_lt (by assumption)
  exact Nat.sub_lt (Nat.lt_of_lt_of_le hp hle) hp

/-- Embedding of `sequence(index)` for a nonnegative integer index: run the
tier-subtraction loop, then return `remaining + first(d)`. -/
def sequence (b index : ℕ) : ℕ :=
  (seqLoop (b / 2) index 1).2 + first b (seqLoop (b / 2) index 1).1

/-- The same loop as `seqLoop`, with `remaining` an arbitrary exact integer:
`sequence(index)` in the source accepts any JS number, including negative
ones, and its loop breaks immediately when `remaining < base/2`. -/
def seqLoopNum (h : ℕ) (remaining : ℤ) (d : ℕ) : ℕ × ℤ :=
  if h = 0 then (d, remaining)
  else if remaining < (h : ℤ) ^ d then (d, remaining)
  else seqLoopNum h (remaining - (h : ℤ) ^ d) (d + 1)
termination_by remaining.toNat
decreasing_by
  have hp : (0 : ℤ) < (h : ℤ) ^ d := by
    have : (0 : ℤ) < (h : ℤ) := by
      exact_mod_cast Nat.pos_of_ne_zero (by assumption)
    positivity
  have hle : (h : ℤ) ^ d ≤ remaining := Int.not_lt.mp (by assumption)
  have h0 : (0 : ℤ) < remaining := lt_of_lt_of_le hp hle
  have : remaining - (h : ℤ) ^ d < remaining := by omega
  exact (Int.toNat_lt_toNat h0).mpr this

/-- Embedding of `sequence(index)` on an arbitrary exact integer index
(the source performs no validation of `index`). -/
def sequenceNum (b : ℕ) (index : ℤ) : ℤ :=
  (seqLoopNum (b / 2) index 1).2 + (first b (seqLoopNum (b / 2) index 1).1 : ℤ)

/-- The accumulation loop of `sequenceInvSafe`:
`for (let d2 = 1; d2 < d; d2++) ans += Math.pow(base / 2, d2)` adds the sizes
of all tiers shorter than `d`; equivalently `∑ d2 ∈ [1, d), h ^ d2`. -/
def tierSum (h d : ℕ) : ℕ := ∑ k in Finset.Ico 1 d, h ^ k

/-- Embedding of `sequenceInvSafe(seq)`: returns the index of `seq` in the
sequence, or `-1` if `seq` is not a member. Inputs failing
`Number.isSafeInteger(seq)` (non-integers) are outside the exact-integer
embedding; the `seq < 0` rejection is kept, so the input type is `ℤ`. -/
def sequenceInvSafe (b : ℕ) (seq : ℤ) : ℤ :=
  if seq < 0 then -1
  else
    let d := len b seq.toNat
    let ans : ℤ := seq - (first b d : ℤ)
    if ans < 0 ∨ ((b / 2 : ℕ) : ℤ) ^ d ≤ ans then -1
    else ans + (tierSum (b / 2) d : ℤ)

/-- Embedding of `sequenceInv(seq)`: like `sequenceInvSafe` but the `-1`
sentinel becomes a throw, embedded as `none`. -/
def sequenceInv (b : ℕ) (seq : ℤ) : Option ℤ :=
  if sequenceInvSafe b seq = -1 then none else some (sequenceInvSafe b seq)

/-- Membership: `seq` is a value of the sequence for base `b`, i.e. it is
`sequence(i)` for some index `i >= 0`. -/
def IsMember (b : ℕ) (seq : ℤ) : Prop := ∃ i : ℕ, (sequence b i : ℤ) = seq

/-! Basic facts about a valid base. -/

lemma valid_half {b : ℕ} (hb : ValidBase b) : 2 ≤ b / 2 ∧ b = 2 * (b / 2) := by
  obtain ⟨he, hge⟩ := hb
  omega

/-! Closed forms and bounds for the tier boundaries `first` and `last`. -/

lemma first_one (b : ℕ) : first b 1 = 0 := by
  simp [first]

lemma first_succ_formula (b m : ℕ) : first b (m + 1) = b ^ (m + 1) - b * (b / 2) ^ m := rfl

lemma last_succ_formula (b m : ℕ) : last b (m + 1) = b ^ (m + 1) - (b / 2) ^ (m + 1) - 1 := rfl

lemma mul_half_pow_le (b m : ℕ) : b * (b / 2) ^ m ≤ b ^ (m + 1) := by
  calc b * (b / 2) ^ m ≤ b * b ^ m :=
        Nat.mul_le_mul_left b (Nat.pow_le_pow_left (Nat.div_le_self b 2) m)
    _ = b ^ (m + 1) := (pow_succ' b m).symm

lemma half_pow_lt {b : ℕ} (hb : ValidBase b) (m : ℕ) : (b / 2) ^ (m + 1) < b ^ (m + 1) := by
  obtain ⟨hh2, hb2⟩ := valid_half hb
  exact Nat.pow_lt_pow_left (by omega) (by omega)

lemma first_cast {b : ℕ} (hb : ValidBase b) (m : ℕ) :
    (first b (m + 1) : ℤ) = (b : ℤ) ^ (m + 1) - (b : ℤ) * ((b / 2 : ℕ) : ℤ) ^ m := by
  rw [first_succ_formula, Nat.cast_sub (mul_half_pow_le b m)]
  push_cast
  ring

lemma last_cast {b : ℕ} (hb : ValidBase b) (m : ℕ) :
    (last b (m + 1) : ℤ) = (b : ℤ) ^ (m + 1) - ((b / 2 : ℕ) : ℤ) ^ (m + 1) - 1 := by
  have h1 := half_pow_lt hb m
  rw [last_succ_formula, Nat.cast_sub (by omega), Nat.cast_sub (by omega)]
  push_cast
  ring

lemma last_add_one {b : ℕ} (hb : ValidBase b) (m : ℕ) :
    last b (m + 1) + 1 = first b (m + 1) + (b / 2) ^ (m + 1) := by
  obtain ⟨hh2, hb2⟩ := valid_half hb
  have hbz : (b : ℤ) = 2 * ((b / 2 : ℕ) : ℤ) := by exact_mod_cast hb2
  have hz : ((last b (m + 1) + 1 : ℕ) : ℤ) = ((first b (m + 1) + (b / 2) ^ (m + 1) : ℕ) : ℤ) := by
    rw [Nat.cast_add, Nat.cast_add, Nat.cast_one, Nat.cast_pow, last_cast hb, first_cast hb, hbz]
    ring
  exact_mod_cast hz

lemma first_succ_eq {b : ℕ} (hb : ValidBase b) (m : ℕ) :
    (last b (m + 1) + 1) * b = first b (m + 2) := by
  have hz : (((last b (m + 1) + 1) * b : ℕ) : ℤ) = ((first b (m + 2) : ℕ) : ℤ) := by
    have hf : (first b (m + 2) : ℤ) = (b : ℤ) ^ (m + 2) - (b : ℤ) * ((b / 2 : ℕ) : ℤ) ^ (m + 1) :=
      first_cast hb (m + 1)
    rw [Nat.cast_mul, Nat.cast_add, Nat.cast_one, last_cast hb, hf]
    ring
  exact_mod_cast hz

lemma pow_le_first {b : ℕ} (hb : ValidBase b) (m : ℕ) : b ^ (m + 1) ≤ first b (m + 2) := by
  obtain ⟨hh2, hb2⟩ := valid_half hb
  have hK : 1 ≤ (b / 2) ^ (m + 1) := Nat.one_le_pow _ _ (by omega)
  have hP : 2 ≤ 2 ^ (m + 1) := by
    calc 2 = 2 ^ 1 := (pow_one 2).symm
      _ ≤ 2 ^ (m + 1) := Nat.pow_le_pow_right (by omega) (by omega)
  have e1 : b ^ (m + 1) = 2 ^ (m + 1) * (b / 2) ^ (m + 1) := by
    rw [← Nat.mul_pow, ← hb2]
  have hkey : b ^ (m + 1) + b * (b / 2) ^ (m + 1) ≤ b ^ (m + 2) := by
    have e2 : b ^ (m + 2) = 2 ^ (m + 1) * (b / 2) ^ (m + 1) * b := by
      rw [← e1]
      exact pow_succ b (m + 1)
    rw [e1, e2]
    calc 2 ^ (m + 1) * (b / 2) ^ (m + 1) + b * (b / 2) ^ (m + 1)
        = (2 ^ (m + 1) + b) * (b / 2) ^ (m + 1) := by ring
      _ ≤ 2 ^ (m + 1) * b * (b / 2) ^ (m + 1) :=
          Nat.mul_le_mul_right _ (Nat.add_le_mul hP (by omega))
      _ = 2 ^ (m + 1) * (b / 2) ^ (m + 1) * b := by ring
  have hle : b * (b / 2) ^ (m + 1) ≤ b ^ (m + 2) := mul_half_pow_le b (m + 1)
  have hf : first b (m + 2) = b ^ (m + 2) - b * (b / 2) ^ (m + 1) := rfl
  omega

lemma last_lt_pow {b : ℕ} (hb : ValidBase b) (m : ℕ) : last b (m + 1) < b ^ (m + 1) := by
  obtain ⟨hh2, hb2⟩ := valid_half hb
  have h1 : 1 ≤ b ^ (m + 1) := Nat.one_le_pow _ _ (by omega)
  rw [last_succ_formula]
  omega

lemma one_le_len (b s : ℕ) : 1 ≤ len b s := by
  rw [len]
  split <;> omega

lemma len_tier {b : ℕ} (hb : ValidBase b) {d r : ℕ} (hd : 1 ≤ d) (hr : r < (b / 2) ^ d) :
    len b (first b d + r) = d := by
  obtain ⟨hh2, hb2⟩ := valid_half hb
  by_cases hd1 : d = 1
  · subst hd1
    rw [pow_one] at hr
    rw [first_one, Nat.zero_add, len]
    by_cases h0 : r = 0
    · simp [h0]
    · rw [if_neg h0, Nat.log_eq_zero_iff.mpr (Or.inl (by omega))]
  · obtain ⟨m, rfl⟩ : ∃ m, d = m + 2 := ⟨d - 2, by omega⟩
    have h1 : b ^ (m + 1) ≤ first b (m + 2) + r :=
      le_trans (pow_le_first hb m) (Nat.le_add_right _ _)
    have h2 : first b (m + 2) + r < b ^ (m + 2) := by
      have ha : last b (m + 2) + 1 = first b (m + 2) + (b / 2) ^ (m + 2) := last_add_one hb (m + 1)
      have hlt : last b (m + 2) < b ^ (m + 2) := last_lt_pow hb (m + 1)
      omega
    have hne : first b (m + 2) + r ≠ 0 := by
      have : 1 ≤ b ^ (m + 1) := Nat.one_le_pow _ _ (by omega)
      omega
    rw [len, if_neg hne, Nat.log_eq_of_pow_le_of_lt_pow h1 h2]

/-! Characterization of the tier-subtraction loop of `sequence`. -/

lemma seqLoop_of_lt {h r d : ℕ} (hlt : r < h ^ d) : seqLoop h r d = (d, r) := by
  rw [seqLoop]
  by_cases h0 : h = 0
  · rw [if_pos h0]
  · rw [if_neg h0, if_pos hlt]

lemma seqLoop_of_ge {h r d : ℕ} (h0 : h ≠ 0) (hge : ¬ r < h ^ d) :
    seqLoop h r d = seqLoop h (r - h ^ d) (d + 1) := by
  rw [seqLoop, if_neg h0, if_neg hge]

lemma seqLoop_spec (h : ℕ) (hh : 1 ≤ h) (r : ℕ) : ∀ d0 : ℕ,
    d0 ≤ (seqLoop h r d0).1 ∧
    r = (seqLoop h r d0).2 + ∑ k in Finset.Ico d0 (seqLoop h r d0).1, h ^ k ∧
    (seqLoop h r d0).2 < h ^ (seqLoop h r d0).1 := by
  induction r using Nat.strong_induction_on with
  | _ r IH =>
    intro d0
    by_cases hlt : r < h ^ d0
    · rw [seqLoop_of_lt hlt]
      exact ⟨le_rfl, by simp, hlt⟩
    · have hp : 1 ≤ h ^ d0 := Nat.one_le_pow _ _ (by omega)
      rw [seqLoop_of_ge (by omega) hlt]
      obtain ⟨h1, h2, h3⟩ := IH (r - h ^ d0) (by omega) (d0 + 1)
      refine ⟨by omega, ?_, h3⟩
      rw [Finset.sum_eq_sum_Ico_succ_bot (by omega : d0 < (seqLoop h (r - h ^ d0) (d0 + 1)).1)]
      omega

/-! The cumulative tier sizes and the unique tier decomposition of an index. -/

lemma tierSum_succ (h : ℕ) {d : ℕ} (hd : 1 ≤ d) : tierSum h (d + 1) = tierSum h d + h ^ d :=
  Finset.sum_Ico_succ_top hd _

lemma tierSum_mono (h : ℕ) {d D : ℕ} (hdD : d ≤ D) : tierSum h d ≤ tierSum h D :=
  Finset.sum_le_sum_of_subset (Finset.Ico_subset_Ico le_rfl hdD)

lemma decomp_unique (h : ℕ) {d D r R : ℕ} (hd : 1 ≤ d) (hD : 1 ≤ D)
    (hr : r < h ^ d) (hR : R < h ^ D)
    (heq : tierSum h d + r = tierSum h D + R) : d = D ∧ r = R := by
  have key : ∀ {x y u v : ℕ}, 1 ≤ x → u < h ^ x →
      tierSum h x + u = tierSum h y + v → ¬ x < y := by
    intro x y u v hx hu he hxy
    have h1 : tierSum h (x + 1) ≤ tierSum h y := tierSum_mono h (by omega)
    have h2 := tierSum_succ h hx
    omega
  have h1 : ¬ d < D := key hd hr heq
  have h2 : ¬ D < d := key hD hR heq.symm
  have h3 : d = D := by omega
  subst h3
  exact ⟨rfl, by omega⟩

lemma sequence_decomp {b : ℕ} (hb : ValidBase b) (i : ℕ) :
    ∃ d r : ℕ, 1 ≤ d ∧ r < (b / 2) ^ d ∧ i = tierSum (b / 2) d + r ∧
      sequence b i = first b d + r := by
  obtain ⟨hh2, hb2⟩ := valid_half hb
  obtain ⟨h1, h2, h3⟩ := seqLoop_spec (b / 2) (by omega) i 1
  refine ⟨(seqLoop (b / 2) i 1).1, (seqLoop (b / 2) i 1).2, h1, h3, ?_, ?_⟩
  · have ht : tierSum (b / 2) (seqLoop (b / 2) i 1).1 =
        ∑ k in Finset.Ico 1 (seqLoop (b / 2) i 1).1, (b / 2) ^ k := rfl
    omega
  · rw [sequence]
    omega

lemma sequence_eq {b : ℕ} (hb : ValidBase b) {d r : ℕ} (hd : 1 ≤ d) (hr : r < (b / 2) ^ d) :
    sequence b (tierSum (b / 2) d + r) = first b d + r := by
  obtain ⟨D, R, hD, hR, hiq, hval⟩ := sequence_decomp hb (tierSum (b / 2) d + r)
  obtain ⟨hdD, hrR⟩ := decomp_unique (b / 2) hd hD hr hR hiq
  rw [hval, ← hdD, ← hrR]

lemma sequence_zero {b : ℕ} (hb : ValidBase b) : sequence b 0 = 0 := by
  obtain ⟨hh2, hb2⟩ := valid_half hb
  have hp : 0 < (b / 2) ^ 1 := by
    rw [pow_one]
    omega
  have h0 : tierSum (b / 2) 1 = 0 := by simp [tierSum]
  have h := sequence_eq hb le_rfl hp
  rw [h0, Nat.zero_add, Nat.add_zero] at h
  rw [h, first_one]

/-! The successor step as seen through the tier decomposition. -/

lemma successor_gt {b : ℕ} (hb : ValidBase b) (seq : ℕ) : seq < successor b seq := by
  obtain ⟨he, hb4⟩ := hb
  rw [successor]
  split
  · have h1 : 1 * (seq + 1) ≤ b * (seq + 1) := Nat.mul_le_mul_right _ (by omega)
    have h2 : (seq + 1) * b = b * (seq + 1) := Nat.mul_comm _ _
    omega
  · omega

lemma succ_sequence {b : ℕ} (hb : ValidBase b) (i : ℕ) :
    successor b (sequence b i) = sequence b (i + 1) := by
  obtain ⟨hh2, hb2⟩ := valid_half hb
  obtain ⟨d, r, hd, hr, hi, hval⟩ := sequence_decomp hb i
  have hlen : len b (first b d + r) = d := len_tier hb hd hr
  have hlast1 : last b d + 1 = first b d + (b / 2) ^ d := by
    obtain ⟨m, rfl⟩ : ∃ m, d = m + 1 := ⟨d - 1, by omega⟩
    exact last_add_one hb m
  by_cases hcase : r + 1 < (b / 2) ^ d
  · have hne : first b d + r ≠ last b d := by omega
    have hsucc : successor b (first b d + r) = first b d + r + 1 := by
      rw [successor, hlen, if_neg hne]
    have hs2 : sequence b (i + 1) = first b d + (r + 1) := by
      have hi1 : i + 1 = tierSum (b / 2) d + (r + 1) := by omega
      rw [hi1, sequence_eq hb hd hcase]
    rw [hval, hsucc, hs2]
    omega
  · have heq : first b d + r = last b d := by omega
    have hsucc : successor b (first b d + r) = (last b d + 1) * b := by
      rw [successor, hlen, if_pos heq, heq]
    have hfs : (last b d + 1) * b = first b (d + 1) := by
      obtain ⟨m, rfl⟩ : ∃ m, d = m + 1 := ⟨d - 1, by omega⟩
      exact first_succ_eq hb m
    have hs2 : sequence b (i + 1) = first b (d + 1) + 0 := by
      have hts : tierSum (b / 2) (d + 1) = tierSum (b / 2) d + (b / 2) ^ d := tierSum_succ _ hd
      have hi1 : i + 1 = tierSum (b / 2) (d + 1) + 0 := by omega
      rw [hi1]
      exact sequence_eq hb (by omega) (Nat.pos_pow_of_pos _ (by omega))
    rw [hval, hsucc, hfs, hs2]
    omega

/-! Correctness of the inverse functions. -/

lemma sequenceInvSafe_eval {b : ℕ} {seq : ℤ} (hnn : ¬ seq < 0) :
    sequenceInvSafe b seq =
      if seq - (first b (len b seq.toNat) : ℤ) < 0 ∨
          ((b / 2 : ℕ) : ℤ) ^ (len b seq.toNat) ≤ seq - (first b (len b seq.toNat) : ℤ) then -1
      else seq - (first b (len b seq.toNat) : ℤ) + (tierSum (b / 2) (len b seq.toNat) : ℤ) := by
  simp only [sequenceInvSafe, if_neg hnn]

lemma sequenceInvSafe_sequence {b : ℕ} (hb : ValidBase b) (i : ℕ) :
    sequenceInvSafe b (sequence b i) = (i : ℤ) := by
  obtain ⟨hh2, hb2⟩ := valid_half hb
  obtain ⟨d, r, hd, hr, hi, hval⟩ := sequence_decomp hb i
  rw [hval, sequenceInvSafe_eval (not_lt.mpr (Int.natCast_nonneg _))]
  rw [Int.toNat_natCast, len_tier hb hd hr]
  have hans : ((first b d + r : ℕ) : ℤ) - (first b d : ℤ) = (r : ℤ) := by
    push_cast
    ring
  rw [hans]
  have hcond : ¬ ((r : ℤ) < 0 ∨ ((b / 2 : ℕ) : ℤ) ^ d ≤ (r : ℤ)) := by
    push_neg
    exact ⟨Int.natCast_nonneg r, by exact_mod_cast hr⟩
  rw [if_neg hcond]
  exact_mod_cast congrArg (Nat.cast : ℕ → ℤ) (by omega : r + tierSum (b / 2) d = i)

lemma member_of_invSafe {b : ℕ} (hb : ValidBase b) {seq : ℤ}
    (hne : sequenceInvSafe b seq ≠ -1) : IsMember b seq := by
  obtain ⟨hh2, hb2⟩ := valid_half hb
  by_cases hneg : seq < 0
  · rw [sequenceInvSafe, if_pos hneg] at hne
    exact absurd rfl hne
  rw [sequenceInvSafe_eval hneg] at hne
  by_cases hcond : seq - (first b (len b seq.toNat) : ℤ) < 0 ∨
      ((b / 2 : ℕ) : ℤ) ^ (len b seq.toNat) ≤ seq - (first b (len b seq.toNat) : ℤ)
  · rw [if_pos hcond] at hne
    exact absurd rfl hne
  push_neg at hcond
  obtain ⟨hc1, hc2⟩ := hcond
  have hd1 : 1 ≤ len b seq.toNat := one_le_len b seq.toNat
  have hansnn : (0 : ℤ) ≤ seq - (first b (len b seq.toNat) : ℤ) := by omega
  have htn : ((seq - (first b (len b seq.toNat) : ℤ)).toNat : ℤ) =
      seq - (first b (len b seq.toNat) : ℤ) := Int.toNat_of_nonneg hansnn
  have hrlt : (seq - (first b (len b seq.toNat) : ℤ)).toNat < (b / 2) ^ (len b seq.toNat) := by
    have hcast : (((b / 2) ^ (len b seq.toNat) : ℕ) : ℤ) =
        ((b / 2 : ℕ) : ℤ) ^ (len b seq.toNat) := by push_cast; rfl
    omega
  refine ⟨tierSum (b / 2) (len b seq.toNat) + (seq - (first b (len b seq.toNat) : ℤ)).toNat, ?_⟩
  rw [sequence_eq hb hd1 hrlt]
  push_cast [htn]
  ring

lemma mem_lt_or_ge {b : ℕ} (hb : ValidBase b) (i : ℕ) :
    sequence b i < b / 2 ∨ b ≤ sequence b i := by
  obtain ⟨hh2, hb2⟩ := valid_half hb
  obtain ⟨d, r, hd, hr, hi, hval⟩ := sequence_decomp hb i
  by_cases hd1 : d = 1
  · left
    subst hd1
    rw [pow_one] at hr
    rw [hval, first_one]
    omega
  · right
    obtain ⟨m, rfl⟩ : ∃ m, d = m + 2 := ⟨d - 2, by omega⟩
    have h1 := pow_le_first hb m
    have h2 : b ≤ b ^ (m + 1) := Nat.le_self_pow (by omega) b
    rw [hval]
    omega

lemma not_mem_half {b : ℕ} (hb : ValidBase b) : ¬ IsMember b ((b / 2 : ℕ) : ℤ) := by
  obtain ⟨hh2, hb2⟩ := valid_half hb
  rintro ⟨i, hi⟩
  have h1 : sequence b i = b / 2 := by exact_mod_cast hi
  have h2 := mem_lt_or_ge hb i
  omega

lemma not_mem_half_add_one {b : ℕ} (hb : ValidBase b) : ¬ IsMember b ((b / 2 + 1 : ℕ) : ℤ) := by
  obtain ⟨hh2, hb2⟩ := valid_half hb
  rintro ⟨i, hi⟩
  have h1 : sequence b i = b / 2 + 1 := by exact_mod_cast hi
  have h2 := mem_lt_or_ge hb i
  omega

/-! The integer-index loop used by `sequence` on arbitrary inputs. -/

lemma seqLoopNum_of_lt {h : ℕ} {r : ℤ} {d : ℕ} (hlt : r < (h : ℤ) ^ d) :
    seqLoopNum h r d = (d, r) := by
  rw [seqLoopNum]
  by_cases h0 : h = 0
  · rw [if_pos h0]
  · rw [if_neg h0, if_pos hlt]

lemma validBase_ten : ValidBase 10 := by
  norm_num [ValidBase]

/-! The claims. -/

/-- Claim C1: for every valid base and every index `i >= 0`,
`sequenceInv(sequence(i)) = i` and `sequenceInvSafe(sequence(i)) = i`. -/
theorem claim_C1 (b : ℕ) (hb : ValidBase b) (i : ℕ) :
    sequenceInv b (sequence b i) = some ((i : ℕ) : ℤ) ∧
      sequenceInvSafe b (sequence b i) = ((i : ℕ) : ℤ) := by
  have hs := sequenceInvSafe_sequence hb i
  refine ⟨?_, hs⟩
  rw [sequenceInv, hs, if_neg (by omega)]

theorem claim_C1_witness :
    ValidBase 10 ∧ sequenceInv 10 (sequence 10 5) = some ((5 : ℕ) : ℤ) ∧
      sequenceInvSafe 10 (sequence 10 5) = ((5 : ℕ) : ℤ) :=
  ⟨validBase_ten, (claim_C1 10 validBase_ten 5).1, (claim_C1 10 validBase_ten 5).2⟩

/-- Claim C2: for every valid base, `sequence(0) = 0` and iterating `successor`
`i` times from `0` yields `sequence(i)`, so forward iteration and random access
enumerate the identical sequence in the identical order. -/
theorem claim_C2 (b : ℕ) (hb : ValidBase b) (i : ℕ) :
    sequence b 0 = 0 ∧ (successor b)^[i] 0 = sequence b i := by
  refine ⟨sequence_zero hb, ?_⟩
  induction i with
  | zero => simpa using (sequence_zero hb).symm
  | succ n ih => rw [Function.iterate_succ_apply', ih, succ_sequence hb]

theorem claim_C2_witness :
    ValidBase 10 ∧ sequence 10 0 = 0 ∧ (successor 10)^[7] 0 = sequence 10 7 :=
  ⟨validBase_ten, (claim_C2 10 validBase_ten 7).1, (claim_C2 10 validBase_ten 7).2⟩

/-- Claim C3: for every valid base and tier `d >= 1`, `first` and `last` equal
the spec's closed forms `base^d - base*(base/2)^(d-1)` and
`base^d - (base/2)^d - 1` with exact integer arithmetic, tier `d` contains
exactly `(base/2)^d` integers, and consecutive tiers are strictly increasing
and non-overlapping (`last(d) < first(d+1)`). -/
theorem claim_C3 (b : ℕ) (hb : ValidBase b) (d : ℕ) (hd : 1 ≤ d) :
    (first b d : ℤ) = (b : ℤ) ^ d - (b : ℤ) * ((b / 2 : ℕ) : ℤ) ^ (d - 1) ∧
    (last b d : ℤ) = (b : ℤ) ^ d - ((b / 2 : ℕ) : ℤ) ^ d - 1 ∧
    (Finset.Icc (first b d) (last b d)).card = (b / 2) ^ d ∧
    last b d < first b (d + 1) := by
  obtain ⟨hh2, hb2⟩ := valid_half hb
  obtain ⟨m, rfl⟩ : ∃ m, d = m + 1 := ⟨d - 1, by omega⟩
  refine ⟨first_cast hb m, last_cast hb m, ?_, ?_⟩
  · rw [Nat.card_Icc]
    have h1 := last_add_one hb m
    omega
  · have h1 : (last b (m + 1) + 1) * b = first b (m + 1 + 1) := first_succ_eq hb m
    have h2 : 1 * (last b (m + 1) + 1) ≤ b * (last b (m + 1) + 1) :=
      Nat.mul_le_mul_right _ (by omega)
    have h3 : (last b (m + 1) + 1) * b = b * (last b (m + 1) + 1) := Nat.mul_comm _ _
    omega

theorem claim_C3_witness :
    ValidBase 10 ∧ (1 : ℕ) ≤ 2 ∧
    ((first 10 2 : ℤ) = (10 : ℤ) ^ 2 - (10 : ℤ) * ((10 / 2 : ℕ) : ℤ) ^ (2 - 1) ∧
      (last 10 2 : ℤ) = (10 : ℤ) ^ 2 - ((10 / 2 : ℕ) : ℤ) ^ 2 - 1 ∧
      (Finset.Icc (first 10 2) (last 10 2)).card = (10 / 2) ^ 2 ∧
      last 10 2 < first 10 (2 + 1)) :=
  ⟨validBase_ten, by norm_num, claim_C3 10 validBase_ten 2 (by norm_num)⟩

/-- Claim C4: for every valid base and every sequence member `seq`,
`successor(seq)` is `(seq + 1) * base` exactly when `seq` is the last member
of its digit-length tier, i.e. when `seq = base^d - (base/2)^d - 1` for
`d = len(seq)`, and `seq + 1` otherwise. (The decision rule in fact holds for
every input; membership is only the claim's precondition.) -/
theorem claim_C4 (b : ℕ) (hb : ValidBase b) (seq : ℕ) (hmem : ∃ i : ℕ, sequence b i = seq) :
    (successor b seq : ℤ) =
      if (seq : ℤ) = (b : ℤ) ^ (len b seq) - ((b / 2 : ℕ) : ℤ) ^ (len b seq) - 1
      then ((seq : ℤ) + 1) * (b : ℤ) else (seq : ℤ) + 1 := by
  obtain ⟨m, hm⟩ : ∃ m, len b seq = m + 1 := ⟨len b seq - 1, by have := one_le_len b seq; omega⟩
  have hiff : ((seq : ℤ) = (b : ℤ) ^ (len b seq) - ((b / 2 : ℕ) : ℤ) ^ (len b seq) - 1) ↔
      seq = last b (len b seq) := by
    rw [hm, ← last_cast hb m, Nat.cast_inj]
  rw [successor]
  by_cases hc : seq = last b (len b seq)
  · rw [if_pos hc, if_pos (hiff.mpr hc)]
    push_cast
    ring
  · rw [if_neg hc, if_neg (fun h => hc (hiff.mp h))]
    push_cast
    ring

theorem claim_C4_witness :
    ValidBase 10 ∧ (∃ i : ℕ, sequence 10 i = 0) ∧
    (successor 10 0 : ℤ) =
      if ((0 : ℕ) : ℤ) = (10 : ℤ) ^ (len 10 0) - ((10 / 2 : ℕ) : ℤ) ^ (len 10 0) - 1
      then (((0 : ℕ) : ℤ) + 1) * (10 : ℤ) else ((0 : ℕ) : ℤ) + 1 :=
  ⟨validBase_ten, ⟨0, sequence_zero validBase_ten⟩,
    claim_C4 10 validBase_ten 0 ⟨0, sequence_zero validBase_ten⟩⟩

/-- Claim C5: for every valid base and every `i >= 0`,
`sequence(i) < sequence(i+1)` as integers. -/
theorem claim_C5 (b : ℕ) (hb : ValidBase b) (i : ℕ) : sequence b i < sequence b (i + 1) := by
  have h1 := succ_sequence hb i
  have h2 := successor_gt hb (sequence b i)
  omega

theorem claim_C5_witness : ValidBase 10 ∧ sequence 10 4 < sequence 10 (4 + 1) :=
  ⟨validBase_ten, claim_C5 10 validBase_ten 4⟩

/-- Claim C6 counterexample: the source's `sequence` performs no index
validation at all. At the negative index `-1` (base 10), the tier loop breaks
immediately and the call returns the normal value `-1 + first(1) = -1`
instead of failing. -/
theorem claim_C6_counterexample : sequenceNum 10 (-1) = -1 := by
  have hlt : (-1 : ℤ) < ((10 / 2 : ℕ) : ℤ) ^ 1 := by norm_num
  rw [sequenceNum, seqLoopNum_of_lt hlt]
  simp [first_one]

/-- Claim C6 amended: `sequence(index)` does not validate its index; for every
valid base and every negative integer index it returns the index itself
(`index + first(1) = index`) as a normal value, with no error. -/
theorem claim_C6_amended (b : ℕ) (hb : ValidBase b) (index : ℤ) (hneg : index < 0) :
    sequenceNum b index = index := by
  obtain ⟨hh2, hb2⟩ := valid_half hb
  have hlt : index < ((b / 2 : ℕ) : ℤ) ^ 1 := by
    have h0 : (0 : ℤ) ≤ ((b / 2 : ℕ) : ℤ) := Int.natCast_nonneg _
    rw [pow_one]
    omega
  rw [sequenceNum, seqLoopNum_of_lt hlt]
  simp [first_one]

theorem claim_C6_witness : ValidBase 10 ∧ (-2 : ℤ) < 0 ∧ sequenceNum 10 (-2) = -2 :=
  ⟨validBase_ten, by norm_num, claim_C6_amended 10 validBase_ten (-2) (by norm_num)⟩

/-- Claim C7: for every valid base, `sequenceInvSafe` returns `-1` (and
`sequenceInv` fails) exactly on non-members, including every negative input
and the tier-1 gap values `base/2` and `base/2 + 1`; on members both return
the same nonnegative index. -/
theorem claim_C7 (b : ℕ) (hb : ValidBase b) :
    (∀ seq : ℤ, ¬ IsMember b seq →
      sequenceInvSafe b seq = -1 ∧ sequenceInv b seq = none) ∧
    (∀ seq : ℤ, seq < 0 → sequenceInvSafe b seq = -1 ∧ sequenceInv b seq = none) ∧
    ¬ IsMember b ((b / 2 : ℕ) : ℤ) ∧ ¬ IsMember b ((b / 2 + 1 : ℕ) : ℤ) ∧
    (∀ seq : ℤ, IsMember b seq →
      ∃ n : ℕ, sequenceInvSafe b seq = (n : ℤ) ∧ sequenceInv b seq = some ((n : ℕ) : ℤ)) := by
  have hkey : ∀ seq : ℤ, ¬ IsMember b seq →
      sequenceInvSafe b seq = -1 ∧ sequenceInv b seq = none := by
    intro seq hnm
    have h1 : sequenceInvSafe b seq = -1 := by
      by_contra hne
      exact hnm (member_of_invSafe hb hne)
    exact ⟨h1, by rw [sequenceInv, if_pos h1]⟩
  refine ⟨hkey, ?_, not_mem_half hb, not_mem_half_add_one hb, ?_⟩
  · intro seq hneg
    apply hkey
    rintro ⟨i, hi⟩
    have h0 := Int.natCast_nonneg (sequence b i)
    omega
  · rintro seq ⟨i, hi⟩
    refine ⟨i, ?_, ?_⟩
    · rw [← hi]
      exact sequenceInvSafe_sequence hb i
    · rw [← hi, sequenceInv, sequenceInvSafe_sequence hb i, if_neg (by omega)]

theorem claim_C7_witness :
    ValidBase 10 ∧ ¬ IsMember 10 ((10 / 2 : ℕ) : ℤ) ∧ ¬ IsMember 10 ((10 / 2 + 1 : ℕ) : ℤ) :=
  ⟨validBase_ten, (claim_C7 10 validBase_ten).2.2.1, (claim_C7 10 validBase_ten).2.2.2.1⟩

/-- Claim C8: the base check of `lexSequence` fails exactly when the base is
not an even integer `>= 4` (the non-integer examples 0.5 and NaN are rejected
by the `Number.isSafeInteger` guard, outside the exact-integer embedding);
in particular it fails on 0, 1, 2, 3, 25 and -1, and succeeds on every even
integer `>= 4`. -/
theorem claim_C8 :
    (∀ base : ℤ, baseCheckFails base = false ↔ base % 2 = 0 ∧ 4 ≤ base) ∧
    (∀ b : ℕ, baseCheckFails (b : ℤ) = false ↔ ValidBase b) ∧
    baseCheckFails 0 = true ∧ baseCheckFails 1 = true ∧ baseCheckFails 2 = true ∧
    baseCheckFails 3 = true ∧ baseCheckFails 25 = true ∧ baseCheckFails (-1) = true := by
  refine ⟨?_, ?_, by decide, by decide, by decide, by decide, by decide, by decide⟩
  · intro base
    simp only [baseCheckFails, Bool.or_eq_false_iff, bne_eq_false_iff_eq,
      decide_eq_false_iff_not, not_lt]
  · intro b
    simp only [baseCheckFails, Bool.or_eq_false_iff, bne_eq_false_iff_eq,
      decide_eq_false_iff_not, not_lt, ValidBase]
    omega

/-- Claim C9: the concrete base-10 scenarios: `sequence` at 0, 4, 5, 29, 30
and 99 gives 0, 4, 50, 74, 750 and 819; `sequenceInv(819) = 99`;
`sequenceInvSafe(5) = -1`; `successor(4) = 50`; `successor(0) = 1`. -/
theorem claim_C9 :
    sequence 10 0 = 0 ∧ sequence 10 4 = 4 ∧ sequence 10 5 = 50 ∧
    sequence 10 29 = 74 ∧ sequence 10 30 = 750 ∧ sequence 10 99 = 819 ∧
    sequenceInv 10 819 = some 99 ∧ sequenceInvSafe 10 5 = -1 ∧
    successor 10 4 = 50 ∧ successor 10 0 = 1 := by
  have e0 : seqLoop 5 0 1 = (1, 0) := seqLoop_of_lt (by norm_num)
  have e4 : seqLoop 5 4 1 = (1, 4) := seqLoop_of_lt (by norm_num)
  have e5 : seqLoop 5 5 1 = (2, 0) := by
    rw [seqLoop_of_ge (by norm_num) (by norm_num), seqLoop_of_lt (by norm_num)]
    norm_num
  have e29 : seqLoop 5 29 1 = (2, 24) := by
    rw [seqLoop_of_ge (by norm_num) (by norm_num), seqLoop_of_lt (by norm_num)]
    norm_num
  have e30 : seqLoop 5 30 1 = (3, 0) := by
    rw [seqLoop_of_ge (by norm_num) (by norm_num), seqLoop_of_ge (by norm_num) (by norm_num),
      seqLoop_of_lt (by norm_num)]
    norm_num
  have e99 : seqLoop 5 99 1 = (3, 69) := by
    rw [seqLoop_of_ge (by norm_num) (by norm_num), seqLoop_of_ge (by norm_num) (by norm_num),
      seqLoop_of_lt (by norm_num)]
    norm_num
  have hlen0 : len 10 0 = 1 := by simp [len]
  have hlen4 : len 10 4 = 1 := by
    rw [len, if_neg (by norm_num), Nat.log_eq_zero_iff.mpr (Or.inl (by norm_num))]
  have hlen5 : len 10 5 = 1 := by
    rw [len, if_neg (by norm_num), Nat.log_eq_zero_iff.mpr (Or.inl (by norm_num))]
  have hlen819 : len 10 819 = 3 := by
    rw [len, if_neg (by norm_num),
      Nat.log_eq_of_pow_le_of_lt_pow (by norm_num) (by norm_num : (819 : ℕ) < 10 ^ (2 + 1))]
  have hlast1 : last 10 1 = 4 := by norm_num [last]
  have hf1 : first 10 1 = 0 := first_one 10
  have hf2 : first 10 2 = 50 := by norm_num [first]
  have hf3 : first 10 3 = 750 := by norm_num [first]
  have hsafe819 : sequenceInvSafe 10 819 = 99 := by
    rw [sequenceInvSafe_eval (by norm_num)]
    have ht : ((819 : ℤ).toNat) = 819 := rfl
    rw [ht, hlen819, hf3]
    have htier : tierSum (10 / 2) 3 = 30 := by decide
    rw [htier]
    norm_num
  refine ⟨?_, ?_, ?_, ?_, ?_, ?_, ?_, ?_, ?_, ?_⟩
  · simp only [sequence]
    norm_num [e0, hf1]
  · simp only [sequence]
    norm_num [e4, hf1]
  · simp only [sequence]
    norm_num [e5, hf2]
  · simp only [sequence]
    norm_num [e29, hf2]
  · simp only [sequence]
    norm_num [e30, hf3]
  · simp only [sequence]
    norm_num [e99, hf3]
  · rw [sequenceInv, hsafe819, if_neg (by norm_num)]
  · rw [sequenceInvSafe_eval (by norm_num)]
    have ht : ((5 : ℤ).toNat) = 5 := rfl
    rw [ht, hlen5, hf1]
    norm_num
  · rw [successor, hlen4, hlast1, if_pos rfl]
  · rw [successor, hlen0, hlast1, if_neg (by norm_num)]

/-- Claim C10 (implicit): for every valid base and tier `d >= 1`,
`(last(d) + 1) * base = first(d+1)`, so `successor` maps the last member of
tier `d` onto the first member of tier `d+1`; consequently the successor of
any sequence member is itself a member and strictly greater than its
argument. -/
theorem claim_C10 (b : ℕ) (hb : ValidBase b) :
    (∀ d : ℕ, 1 ≤ d → (last b d + 1) * b = first b (d + 1) ∧
      successor b (last b d) = first b (d + 1)) ∧
    (∀ v : ℕ, (∃ i : ℕ, sequence b i = v) →
      (∃ j : ℕ, sequence b j = successor b v) ∧ v < successor b v) := by
  obtain ⟨hh2, hb2⟩ := valid_half hb
  constructor
  · intro d hd
    obtain ⟨m, rfl⟩ : ∃ m, d = m + 1 := ⟨d - 1, by omega⟩
    have h1 : (last b (m + 1) + 1) * b = first b (m + 1 + 1) := first_succ_eq hb m
    refine ⟨h1, ?_⟩
    have hone : 1 ≤ (b / 2) ^ (m + 1) := Nat.one_le_pow _ _ (by omega)
    have hadd := last_add_one hb m
    have hld : last b (m + 1) = first b (m + 1) + ((b / 2) ^ (m + 1) - 1) := by omega
    have hlen : len b (last b (m + 1)) = m + 1 := by
      rw [hld]
      exact len_tier hb (by omega) (by omega)
    rw [successor, hlen, if_pos rfl, h1]
  · rintro v ⟨i, rfl⟩
    exact ⟨⟨i + 1, (succ_sequence hb i).symm⟩, successor_gt hb _⟩

theorem claim_C10_witness :
    ValidBase 10 ∧ (1 : ℕ) ≤ 1 ∧
    ((last 10 1 + 1) * 10 = first 10 (1 + 1) ∧
      successor 10 (last 10 1) = first 10 (1 + 1)) :=
  ⟨validBase_ten, le_rfl, (claim_C10 10 validBase_ten).1 1 le_rfl⟩

end LexSequence
